import Mathlib

/-!
ReadAble — verification of the chunking / recombination / speech-sync pipeline.

A shallow embedding of the core client-side pipeline of the ReadAble
repository:

* `textChunker.js` — `chunkText`, `findOptimalBreakPoint`, `countWords`,
  `recombineChunks`;
* `textFormatter.js` — `formatText`, `removeQuotes`, `formatTextForSpeech`;
* `api.js` — `processDocumentChunks` (and its interplay with the backend
  `SummarizeDocumentFunction.ProcessDocumentChunksAsync`);
* `AudioPlayer.jsx` — the speech/highlight synchronizer (`startWordTracking`,
  `playFromWord`, `stopWordTracking`, `handlePause`, `handleStop`, and the
  utterance `onerror` handlers).

JavaScript strings are modelled as `List Char`; JavaScript numbers that are
used as array indices/offsets as `Nat` (or `Int` where the source can hold
`-1`).  The float comparisons `x > len * 0.7` / `x > len * 0.8` in
`findOptimalBreakPoint` are modelled exactly over the integers as
`10*x > 7*len` / `10*x > 8*len`.
-/

namespace ReadAble

/-- JavaScript whitespace: the characters matched by the regex class `\s`
and stripped by `String.prototype.trim` (ASCII blanks plus the common
Unicode blanks). -/
def isJsWhitespace (c : Char) : Bool :=
  c == ' ' || c == '\t' || c == '\n' || c == '\r' || c == '\u000b' ||
  c == '\u000c' || c == ' ' || c == '﻿'

/-- `String.prototype.trim`: drop leading and trailing whitespace. -/
def trimChars (l : List Char) : List Char :=
  ((l.dropWhile isJsWhitespace).reverse.dropWhile isJsWhitespace).reverse

/-- Helper for `splitWs`: accumulates the current (reversed) word. -/
def splitWsAux : List Char → List Char → List (List Char)
  | [], acc => if acc.isEmpty then [] else [acc.reverse]
  | c :: rest, acc =>
    if isJsWhitespace c then
      if acc.isEmpty then splitWsAux rest [] else acc.reverse :: splitWsAux rest []
    else splitWsAux rest (c :: acc)

/-- `text.split(/\s+/).filter(word => word.length > 0)`: the maximal
whitespace-free runs of `l`, in order. -/
def splitWs (l : List Char) : List (List Char) :=
  splitWsAux l []

/-- `countWords` from textChunker.js:
`if (!text || text.trim().length === 0) return 0; return text.trim().split(/\s+/).length`.
(A trimmed non-empty string has no leading/trailing whitespace, so its
`split(/\s+/)` has no empty components.) -/
def countWords (text : List Char) : Nat :=
  if (trimChars text).isEmpty then 0 else (splitWs (trimChars text)).length

/-- `text.substring(a, b)` for `a ≤ b` (the only way the source calls it). -/
def sliceChars (l : List Char) (a b : Nat) : List Char :=
  (l.take b).drop a

/-- `String.prototype.lastIndexOf(sub)`: the largest index at which `sub`
occurs in `l`, or `-1` when it does not occur. -/
def lastIndexOfSub (l sub : List Char) : Int :=
  match ((List.range (l.length + 1)).filter (fun i => sub.isPrefixOf (l.drop i))).getLast? with
  | some i => (i : Int)
  | none => -1

/-- The body of the `for (const ending of sentenceEndings)` loop of
`findOptimalBreakPoint`: update `bestBreak` when this sentence ending has a
late-enough last occurrence. -/
def breakStep (searchText : List Char) (bestBreak : Int) (ending : List Char) : Int :=
  let lastIndex := lastIndexOfSub searchText ending
  if bestBreak < lastIndex ∧ 7 * (searchText.length : Int) < 10 * lastIndex then
    lastIndex + (ending.length : Int)
  else bestBreak

/-- `findOptimalBreakPoint(text, start, end, preserveParagraphs)` from
textChunker.js.  `stop` is the source's `end` parameter.  The float
comparisons against `searchText.length * 0.7` / `* 0.8` are modelled
exactly over the integers. -/
def findOptimalBreakPoint (text : List Char) (start stop : Nat)
    (preserveParagraphs : Bool) : Nat :=
  let searchText := sliceChars text start stop
  let len : Int := searchText.length
  let paragraphBreak := lastIndexOfSub searchText ['\n', '\n']
  if preserveParagraphs ∧ 7 * len < 10 * paragraphBreak then
    start + paragraphBreak.toNat + 2
  else
    let bestBreak := breakStep searchText
      (breakStep searchText (breakStep searchText (-1) ['.', ' ']) ['!', ' ']) ['?', ' ']
    if -1 < bestBreak then start + bestBreak.toNat
    else
      let lastSpace := lastIndexOfSub searchText [' ']
      if 8 * len < 10 * lastSpace then start + lastSpace.toNat + 1
      else stop

/-- The options object destructured at the top of `chunkText`. -/
structure ChunkOptions where
  maxChunkSize : Nat
  minChunkSize : Nat
  overlapSize : Nat
  preserveParagraphs : Bool
deriving Repr, DecidableEq

/-- `MAX_CHUNK_SIZE` from textChunker.js. -/
def MAX_CHUNK_SIZE : Nat := 450000

/-- `MIN_CHUNK_SIZE` from textChunker.js. -/
def MIN_CHUNK_SIZE : Nat := 100000

/-- `OVERLAP_SIZE` from textChunker.js. -/
def OVERLAP_SIZE : Nat := 5000

/-- The default values of the options destructured in `chunkText`. -/
def defaultChunkOptions : ChunkOptions :=
  { maxChunkSize := MAX_CHUNK_SIZE, minChunkSize := MIN_CHUNK_SIZE,
    overlapSize := OVERLAP_SIZE, preserveParagraphs := true }

/-- A chunk object as produced by `chunkText`.  The single-chunk path of the
source does not set an `id` field, hence `Option`. -/
structure Chunk where
  id : Option String
  text : List Char
  chunkIndex : Nat
  totalChunks : Nat
  startPosition : Nat
  endPosition : Nat
  wordCount : Nat
deriving Repr, DecidableEq

/-- The chunk size chosen by one iteration of the `chunkText` loop at
position `pos` (lines 264-279 of textChunker.js): `min(maxChunkSize,
remainingText)`, possibly replaced by `breakPoint - currentPosition` when a
good break point beyond `minChunkSize` exists. -/
def chunkSizeAt (text : List Char) (opts : ChunkOptions) (pos : Nat) : Nat :=
  let remainingText := text.length - pos
  let chunkSize := min opts.maxChunkSize remainingText
  if pos + chunkSize < text.length then
    let breakPoint := findOptimalBreakPoint text pos (pos + chunkSize) opts.preserveParagraphs
    if pos + opts.minChunkSize < breakPoint then breakPoint - pos else chunkSize
  else chunkSize

/-- The position update at the bottom of the `chunkText` loop:
`Math.max(currentPosition + chunkSize - overlapSize, currentPosition + 1)`. -/
def nextPositionAt (text : List Char) (opts : ChunkOptions) (pos : Nat) : Nat :=
  max (pos + chunkSizeAt text opts pos - opts.overlapSize) (pos + 1)

/-- The chunk object pushed by one iteration of the `chunkText` loop. -/
def chunkAt (text : List Char) (opts : ChunkOptions) (pos idx : Nat) : Chunk :=
  { id := some (String.append ("chunk_") (Nat.repr idx)),
    text := trimChars (sliceChars text pos (pos + chunkSizeAt text opts pos)),
    chunkIndex := idx,
    totalChunks := 0,
    startPosition := pos,
    endPosition := pos + chunkSizeAt text opts pos,
    wordCount := countWords (trimChars (sliceChars text pos (pos + chunkSizeAt text opts pos))) }

@[simp]
theorem chunkAt_startPosition (text : List Char) (opts : ChunkOptions) (pos idx : Nat) :
    (chunkAt text opts pos idx).startPosition = pos := rfl

@[simp]
theorem chunkAt_endPosition (text : List Char) (opts : ChunkOptions) (pos idx : Nat) :
    (chunkAt text opts pos idx).endPosition = pos + chunkSizeAt text opts pos := rfl

@[simp]
theorem chunkAt_text (text : List Char) (opts : ChunkOptions) (pos idx : Nat) :
    (chunkAt text opts pos idx).text =
      trimChars (sliceChars text pos (pos + chunkSizeAt text opts pos)) := rfl

@[simp]
theorem chunkAt_chunkIndex (text : List Char) (opts : ChunkOptions) (pos idx : Nat) :
    (chunkAt text opts pos idx).chunkIndex = idx := rfl

/-- The `while (currentPosition < text.length)` loop of `chunkText`
(lines 263-299 of textChunker.js).  A chunk is pushed only when its trimmed
text is non-empty, in which case `chunkIndex` advances. -/
def chunkTextLoop (text : List Char) (opts : ChunkOptions) (pos idx : Nat) : List Chunk :=
  if h : pos < text.length then
    if (trimChars (sliceChars text pos (pos + chunkSizeAt text opts pos))).isEmpty then
      chunkTextLoop text opts (nextPositionAt text opts pos) idx
    else
      chunkAt text opts pos idx :: chunkTextLoop text opts (nextPositionAt text opts pos) (idx + 1)
  else []
termination_by text.length - pos
decreasing_by
  all_goals
    have h1 : pos + 1 ≤ nextPositionAt text opts pos := le_max_right _ _
    omega

/-- `chunkText(text, options)` from textChunker.js: empty input yields `[]`;
input within `maxChunkSize` yields a single chunk of the trimmed text;
otherwise the loop runs and `totalChunks` is patched on every chunk. -/
def chunkText (text : List Char) (opts : ChunkOptions) : List Chunk :=
  if text.isEmpty then []
  else if text.length ≤ opts.maxChunkSize then
    [{ id := none, text := trimChars text, chunkIndex := 0, totalChunks := 1,
       startPosition := 0, endPosition := text.length, wordCount := countWords text }]
  else
    let chunks := chunkTextLoop text opts 0 0
    chunks.map (fun c => { c with totalChunks := chunks.length })

/-- The `chunkText` loop with an explicit iteration budget: `none` means the
budget was exhausted with the loop still running.  Used to express that the
loop terminates within `text.length` iterations (each iteration advances
`currentPosition` by at least one). -/
def chunkTextLoopFuel (text : List Char) (opts : ChunkOptions) :
    Nat → Nat → Nat → Option (List Chunk)
  | 0, pos, _ => if pos < text.length then none else some []
  | fuel + 1, pos, idx =>
    if pos < text.length then
      if (trimChars (sliceChars text pos (pos + chunkSizeAt text opts pos))).isEmpty then
        chunkTextLoopFuel text opts fuel (nextPositionAt text opts pos) idx
      else
        (chunkTextLoopFuel text opts fuel (nextPositionAt text opts pos) (idx + 1)).map
          (fun rest => chunkAt text opts pos idx :: rest)
    else some []

/-- A budget of `text.length - pos` iterations always suffices: the loop of
`chunkText` terminates, advancing by at least one position per iteration. -/
theorem chunkTextLoopFuel_eq (text : List Char) (opts : ChunkOptions) :
    ∀ fuel pos idx, text.length - pos ≤ fuel →
      chunkTextLoopFuel text opts fuel pos idx = some (chunkTextLoop text opts pos idx) := by
  intro fuel
  induction fuel with
  | zero =>
    intro pos idx hf
    have hp : ¬ pos < text.length := by omega
    rw [chunkTextLoop]
    simp [chunkTextLoopFuel, hp]
  | succ n ih =>
    intro pos idx hf
    rw [chunkTextLoop]
    by_cases hp : pos < text.length
    · have hnext : pos + 1 ≤ nextPositionAt text opts pos := le_max_right _ _
      have h2 : text.length - nextPositionAt text opts pos ≤ n := by omega
      simp only [chunkTextLoopFuel, if_pos hp, dif_pos hp, ih _ _ h2]
      split
      · rfl
      · rfl
    · simp [chunkTextLoopFuel, hp]

/-! ### Structural facts about the chunker -/

theorem trimChars_eq_nil_iff (l : List Char) :
    trimChars l = [] ↔ ∀ c ∈ l, isJsWhitespace c = true := by
  unfold trimChars
  rw [List.reverse_eq_nil_iff, List.dropWhile_eq_nil_iff]
  simp only [List.mem_reverse]
  constructor
  · intro h c hc
    have hsplit : l.takeWhile isJsWhitespace ++ l.dropWhile isJsWhitespace = l :=
      List.takeWhile_append_dropWhile isJsWhitespace l
    rw [← hsplit] at hc
    rcases List.mem_append.mp hc with h1 | h2
    · exact List.mem_takeWhile_imp h1
    · exact h c h2
  · intro h c hc
    exact h c ((List.dropWhile_sublist _).subset hc)

theorem sliceChars_ne_nil (l : List Char) (a b : Nat) (h : sliceChars l a b ≠ []) :
    a < b ∧ a < l.length := by
  have hlen := List.length_pos.mpr h
  unfold sliceChars at hlen
  simp only [List.length_drop, List.length_take] at hlen
  omega

theorem getElem_mem_sliceChars (l : List Char) (a b p : Nat) (hp : p < l.length)
    (h1 : a ≤ p) (h2 : p < b) : l[p] ∈ sliceChars l a b := by
  have hq : p - a < (sliceChars l a b).length := by
    unfold sliceChars
    simp only [List.length_drop, List.length_take]
    omega
  have hval : (sliceChars l a b)[p - a] = l[p] := by
    unfold sliceChars
    rw [List.getElem_drop]
    rw [List.getElem_take]
    congr 1
    omega
  rw [← hval]
  exact List.getElem_mem hq

theorem lastIndexOfSub_cases (l sub : List Char) :
    lastIndexOfSub l sub = -1 ∨
      (0 ≤ lastIndexOfSub l sub ∧ (lastIndexOfSub l sub).toNat + sub.length ≤ l.length) := by
  unfold lastIndexOfSub
  cases hg : ((List.range (l.length + 1)).filter
      (fun i => sub.isPrefixOf (l.drop i))).getLast? with
  | none => left; rfl
  | some i =>
    right
    have hmem : i ∈ (List.range (l.length + 1)).filter (fun i => sub.isPrefixOf (l.drop i)) := by
      obtain ⟨hne, hxeq⟩ := List.mem_getLast?_eq_getLast (Option.mem_def.mpr hg)
      exact hxeq ▸ List.getLast_mem hne
    rw [List.mem_filter] at hmem
    obtain ⟨hr, hp⟩ := hmem
    have hpre : sub <+: l.drop i := List.isPrefixOf_iff_prefix.mp hp
    have hlen : sub.length ≤ (l.drop i).length := hpre.length_le
    rw [List.length_drop] at hlen
    have hi : i < l.length + 1 := List.mem_range.mp hr
    refine ⟨Int.natCast_nonneg i, ?_⟩
    rw [Int.toNat_natCast]
    omega

theorem breakStep_le (S : List Char) (b : Int) (e : List Char)
    (hb : b ≤ (S.length : Int)) (he : e.length = 2) :
    breakStep S b e ≤ (S.length : Int) := by
  simp only [breakStep]
  split_ifs with h
  · rcases lastIndexOfSub_cases S e with hc | ⟨hc0, hcb⟩
    · omega
    · rw [he] at hcb
      rw [he]
      omega
  · exact hb

theorem findOptimalBreakPoint_le (text : List Char) (start stop : Nat) (pp : Bool)
    (h1 : start ≤ stop) (h2 : stop ≤ text.length) :
    findOptimalBreakPoint text start stop pp ≤ stop := by
  have hslen : (sliceChars text start stop).length = stop - start := by
    unfold sliceChars
    simp only [List.length_drop, List.length_take]
    omega
  simp only [findOptimalBreakPoint]
  split_ifs with hpar hbest hsp
  · obtain ⟨hpp, hpar⟩ := hpar
    rcases lastIndexOfSub_cases (sliceChars text start stop) ['\n', '\n'] with hc | ⟨hc0, hcb⟩
    · rw [hc] at hpar
      omega
    · simp only [List.length_cons, List.length_nil] at hcb
      omega
  · have hstep : breakStep (sliceChars text start stop)
        (breakStep (sliceChars text start stop)
          (breakStep (sliceChars text start stop) (-1) ['.', ' ']) ['!', ' ']) ['?', ' ']
        ≤ ((sliceChars text start stop).length : Int) := by
      refine breakStep_le _ _ _ (breakStep_le _ _ _ (breakStep_le _ _ _ ?_ rfl) rfl) rfl
      omega
    omega
  · rcases lastIndexOfSub_cases (sliceChars text start stop) [' '] with hc | ⟨hc0, hcb⟩
    · rw [hc] at hsp
      omega
    · simp only [List.length_cons, List.length_nil] at hcb
      omega
  · exact le_rfl

theorem chunkSizeAt_le (text : List Char) (opts : ChunkOptions) (pos : Nat)
    (hp : pos < text.length) : pos + chunkSizeAt text opts pos ≤ text.length := by
  simp only [chunkSizeAt]
  split_ifs with hin hbp
  · have hb := findOptimalBreakPoint_le text pos
      (pos + min opts.maxChunkSize (text.length - pos)) opts.preserveParagraphs
      (by omega) (by omega)
    omega
  · omega
  · omega

theorem chunkSizeAt_pos (text : List Char) (opts : ChunkOptions) (pos : Nat)
    (hp : pos < text.length) (hmax : 0 < opts.maxChunkSize) :
    0 < chunkSizeAt text opts pos := by
  simp only [chunkSizeAt]
  split_ifs with hin hbp
  · omega
  · omega
  · omega

theorem chunkSizeAt_cases (text : List Char) (opts : ChunkOptions) (pos : Nat)
    (hp : pos < text.length) :
    pos + chunkSizeAt text opts pos = text.length ∨
    chunkSizeAt text opts pos = opts.maxChunkSize ∨
    opts.minChunkSize < chunkSizeAt text opts pos := by
  simp only [chunkSizeAt]
  split_ifs with hin hbp
  · right; right; omega
  · right; left; omega
  · left; omega

theorem nextPositionAt_gt (text : List Char) (opts : ChunkOptions) (pos : Nat) :
    pos < nextPositionAt text opts pos := by
  simp only [nextPositionAt]
  omega

theorem nextPositionAt_le (text : List Char) (opts : ChunkOptions) (pos : Nat)
    (h : 1 ≤ chunkSizeAt text opts pos) :
    nextPositionAt text opts pos ≤ pos + chunkSizeAt text opts pos := by
  simp only [nextPositionAt]
  omega

theorem nextPositionAt_add_overlap (text : List Char) (opts : ChunkOptions) (pos : Nat) :
    pos + chunkSizeAt text opts pos ≤ nextPositionAt text opts pos + opts.overlapSize := by
  simp only [nextPositionAt]
  omega

/-- Every chunk the loop emits starts at or after the loop position, lies
inside the text, spans exactly the chunk size chosen at its start position,
and stores the trimmed slice of its interval. -/
theorem chunkTextLoopFuel_mem (text : List Char) (opts : ChunkOptions) :
    ∀ fuel pos idx res, chunkTextLoopFuel text opts fuel pos idx = some res →
      ∀ c ∈ res, pos ≤ c.startPosition ∧ c.startPosition < text.length ∧
        c.endPosition = c.startPosition + chunkSizeAt text opts c.startPosition ∧
        c.startPosition < c.endPosition ∧ c.endPosition ≤ text.length ∧
        c.text = trimChars (sliceChars text c.startPosition c.endPosition) := by
  intro fuel
  induction fuel with
  | zero =>
    intro pos idx res h c hc
    simp only [chunkTextLoopFuel] at h
    split at h
    · simp at h
    · simp only [Option.some.injEq] at h
      subst h
      simp at hc
  | succ n ih =>
    intro pos idx res h c hc
    simp only [chunkTextLoopFuel] at h
    split at h
    case isTrue hp =>
      split at h
      case isTrue hskip =>
        have hnext := nextPositionAt_gt text opts pos
        obtain ⟨i1, i2, i3, i4, i5, i6⟩ := ih _ _ _ h c hc
        exact ⟨by omega, i2, i3, i4, i5, i6⟩
      case isFalse hpush =>
        rw [Option.map_eq_some'] at h
        obtain ⟨rest, hrest, hres⟩ := h
        subst hres
        rcases List.mem_cons.mp hc with hceq | hcr
        · subst hceq
          have hne : trimChars (sliceChars text pos (pos + chunkSizeAt text opts pos)) ≠ [] := by
            intro hnil
            rw [hnil] at hpush
            simp at hpush
          have hslice : sliceChars text pos (pos + chunkSizeAt text opts pos) ≠ [] := by
            intro hnil
            rw [hnil] at hne
            exact hne rfl
          have hcs := sliceChars_ne_nil text _ _ hslice
          refine ⟨le_rfl, hp, rfl, ?_, chunkSizeAt_le text opts pos hp, rfl⟩
          show pos < pos + chunkSizeAt text opts pos
          omega
        · have hnext := nextPositionAt_gt text opts pos
          obtain ⟨i1, i2, i3, i4, i5, i6⟩ := ih _ _ _ hrest c hcr
          exact ⟨by omega, i2, i3, i4, i5, i6⟩
    case isFalse hp =>
      simp only [Option.some.injEq] at h
      subst h
      simp at hc

/-- The start offsets of the loop's chunks are strictly increasing. -/
theorem chunkTextLoopFuel_chain_start (text : List Char) (opts : ChunkOptions) :
    ∀ fuel pos idx res, chunkTextLoopFuel text opts fuel pos idx = some res →
      List.Chain' (fun a b : Chunk => a.startPosition < b.startPosition) res := by
  intro fuel
  induction fuel with
  | zero =>
    intro pos idx res h
    simp only [chunkTextLoopFuel] at h
    split at h
    · simp at h
    · simp only [Option.some.injEq] at h
      subst h
      simp
  | succ n ih =>
    intro pos idx res h
    simp only [chunkTextLoopFuel] at h
    split at h
    case isTrue hp =>
      split at h
      case isTrue hskip => exact ih _ _ _ h
      case isFalse hpush =>
        rw [Option.map_eq_some'] at h
        obtain ⟨rest, hrest, hres⟩ := h
        subst hres
        rw [List.chain'_cons']
        refine ⟨?_, ih _ _ _ hrest⟩
        intro b hb
        have hbm : b ∈ rest := List.mem_of_mem_head? hb
        have hmem := chunkTextLoopFuel_mem text opts _ _ _ _ hrest b hbm
        have hnext := nextPositionAt_gt text opts pos
        show pos < b.startPosition
        omega
    case isFalse hp =>
      simp only [Option.some.injEq] at h
      subst h
      simp

/-- With the source's parameter shape (`overlapSize ≤ minChunkSize ≤
maxChunkSize`, as with the defaults 5000/100000/450000), consecutive chunks
have strictly increasing starts, non-decreasing ends, and overlap by at most
`overlapSize`. -/
def chunkRel (ov : Nat) (a b : Chunk) : Prop :=
  a.startPosition < b.startPosition ∧ a.endPosition ≤ b.startPosition + ov ∧
  a.endPosition ≤ b.endPosition

theorem chunkTextLoopFuel_chain (text : List Char) (opts : ChunkOptions)
    (h1 : opts.overlapSize ≤ opts.minChunkSize) (h2 : opts.minChunkSize ≤ opts.maxChunkSize) :
    ∀ fuel pos idx res, chunkTextLoopFuel text opts fuel pos idx = some res →
      List.Chain' (chunkRel opts.overlapSize) res := by
  intro fuel
  induction fuel with
  | zero =>
    intro pos idx res h
    simp only [chunkTextLoopFuel] at h
    split at h
    · simp at h
    · simp only [Option.some.injEq] at h
      subst h
      simp
  | succ n ih =>
    intro pos idx res h
    simp only [chunkTextLoopFuel] at h
    split at h
    case isTrue hp =>
      split at h
      case isTrue hskip => exact ih _ _ _ h
      case isFalse hpush =>
        rw [Option.map_eq_some'] at h
        obtain ⟨rest, hrest, hres⟩ := h
        subst hres
        rw [List.chain'_cons']
        refine ⟨?_, ih _ _ _ hrest⟩
        intro b hb
        have hbm : b ∈ rest := List.mem_of_mem_head? hb
        obtain ⟨hb1, hb2, hb3, hb4, hb5, _⟩ := chunkTextLoopFuel_mem text opts _ _ _ _ hrest b hbm
        have hnext := nextPositionAt_gt text opts pos
        have hov := nextPositionAt_add_overlap text opts pos
        have hle := chunkSizeAt_le text opts pos hp
        simp only [chunkRel, chunkAt_startPosition, chunkAt_endPosition]
        rcases chunkSizeAt_cases text opts b.startPosition hb2 with hc | hc | hc
        · exact ⟨by omega, by omega, by omega⟩
        · exact ⟨by omega, by omega, by omega⟩
        · exact ⟨by omega, by omega, by omega⟩
    case isFalse hp =>
      simp only [Option.some.injEq] at h
      subst h
      simp

/-- Every non-whitespace character of the text from the loop position
onwards is covered by some emitted chunk's interval (windows that are
dropped are dropped only because they trim to nothing, i.e. are pure
whitespace). -/
theorem chunkTextLoopFuel_cover (text : List Char) (opts : ChunkOptions)
    (hmax : 0 < opts.maxChunkSize) :
    ∀ fuel pos idx res, chunkTextLoopFuel text opts fuel pos idx = some res →
      ∀ p, pos ≤ p → ∀ hp : p < text.length, isJsWhitespace text[p] = false →
        ∃ c ∈ res, c.startPosition ≤ p ∧ p < c.endPosition := by
  intro fuel
  induction fuel with
  | zero =>
    intro pos idx res h p hpos hp hw
    simp only [chunkTextLoopFuel] at h
    split at h
    · simp at h
    · omega
  | succ n ih =>
    intro pos idx res h p hpos hp hw
    simp only [chunkTextLoopFuel] at h
    split at h
    case isTrue hin =>
      have hcs := chunkSizeAt_pos text opts pos hin hmax
      have hnle := nextPositionAt_le text opts pos (by omega)
      split at h
      case isTrue hskip =>
        by_cases hwin : p < pos + chunkSizeAt text opts pos
        · exfalso
          rw [List.isEmpty_iff] at hskip
          have hall := (trimChars_eq_nil_iff _).mp hskip
          have hmem := getElem_mem_sliceChars text pos (pos + chunkSizeAt text opts pos) p hp
            hpos hwin
          have := hall _ hmem
          rw [hw] at this
          exact Bool.false_ne_true this
        · exact ih _ _ _ h p (by omega) hp hw
      case isFalse hpush =>
        rw [Option.map_eq_some'] at h
        obtain ⟨rest, hrest, hres⟩ := h
        subst hres
        by_cases hwin : p < pos + chunkSizeAt text opts pos
        · exact ⟨chunkAt text opts pos idx, List.mem_cons_self _ _, hpos, hwin⟩
        · obtain ⟨c, hcm, hc1, hc2⟩ := ih _ _ _ hrest p (by omega) hp hw
          exact ⟨c, List.mem_cons_of_mem _ hcm, hc1, hc2⟩
    case isFalse hin =>
      omega

/-! ### Concrete inputs for counterexamples and witnesses -/

/-- Chunking options with a zero overlap budget (so there is no overlap
region at all between adjacent chunks). -/
def noOverlapOpts : ChunkOptions :=
  { maxChunkSize := 4, minChunkSize := 1, overlapSize := 0, preserveParagraphs := true }

/-- Chunking options with a positive overlap budget. -/
def overlapOpts : ChunkOptions :=
  { maxChunkSize := 4, minChunkSize := 1, overlapSize := 1, preserveParagraphs := true }

/-- The six-character text `"abc de"`. -/
def tAbcDe : List Char := ['a', 'b', 'c', ' ', 'd', 'e']

/-- The spec's example input `"Hello world. This is ReadAble."`. -/
def helloText : List Char :=
  ['H', 'e', 'l', 'l', 'o', ' ', 'w', 'o', 'r', 'l', 'd', '.', ' ', 'T', 'h', 'i', 's', ' ',
   'i', 's', ' ', 'R', 'e', 'a', 'd', 'A', 'b', 'l', 'e', '.']

/-- Computation rule for `chunkText` on over-limit input, through the
fuel-bounded loop (which the kernel can evaluate). -/
theorem chunkText_over_eq (text : List Char) (opts : ChunkOptions) (L : List Chunk)
    (h0 : text.isEmpty = false) (h1 : opts.maxChunkSize < text.length)
    (h : chunkTextLoopFuel text opts text.length 0 0 = some L) :
    chunkText text opts = L.map (fun c => { c with totalChunks := L.length }) := by
  have hL : chunkTextLoop text opts 0 0 = L :=
    Option.some.inj ((chunkTextLoopFuel_eq text opts text.length 0 0 (by omega)).symm.trans h)
  simp only [chunkText]
  rw [if_neg (by simp [h0]), if_neg (by omega)]
  simp only [hL]

/-! ### Claim C9: termination of the chunking loop -/

/-- **C9**: `chunkText` terminates on every finite input text.  Each loop
iteration advances the current position by at least one character (the
next position is the maximum of the overlap-adjusted position and the
current position plus one), so a budget of `text.length` iterations always
completes the loop, with the same chunks. -/
theorem c9_chunkText_loop_terminates (text : List Char) (opts : ChunkOptions) :
    (∀ pos, pos < nextPositionAt text opts pos) ∧
    chunkTextLoopFuel text opts text.length 0 0 = some (chunkTextLoop text opts 0 0) :=
  ⟨fun pos => nextPositionAt_gt text opts pos,
   chunkTextLoopFuel_eq text opts text.length 0 0 (by omega)⟩

/-! ### Claim C6: behaviour on input within the maximum chunk size -/

/-- **C6** (amended): for input within `maxChunkSize`, empty input yields the
empty sequence, and *any* non-empty input (including whitespace-only input,
whose trimmed chunk text is empty) yields exactly one chunk whose text is
`trim(T)`, with chunk index 0, start offset 0 and end offset `|T|`. -/
theorem c6_small_input (text : List Char) (opts : ChunkOptions)
    (hlen : text.length ≤ opts.maxChunkSize) :
    (text = [] → chunkText text opts = []) ∧
    (text ≠ [] → chunkText text opts =
      [{ id := none, text := trimChars text, chunkIndex := 0, totalChunks := 1,
         startPosition := 0, endPosition := text.length, wordCount := countWords text }]) := by
  constructor
  · intro h
    subst h
    rfl
  · intro h
    simp only [chunkText]
    rw [if_neg (by simp [List.isEmpty_iff, h]), if_pos hlen]

/-- Witness for C6 on the spec's example `"Hello world. This is ReadAble."`. -/
theorem c6_small_input_witness :
    helloText ≠ [] ∧ helloText.length ≤ defaultChunkOptions.maxChunkSize ∧
    chunkText helloText defaultChunkOptions =
      [{ id := none, text := trimChars helloText, chunkIndex := 0, totalChunks := 1,
         startPosition := 0, endPosition := helloText.length,
         wordCount := countWords helloText }] :=
  ⟨by decide, by decide,
   (c6_small_input helloText defaultChunkOptions (by decide)).2 (by decide)⟩

/-- **C6** fails as stated for whitespace-only input: `" "` is within the
maximum chunk size and whitespace-only, yet `chunkText` returns a single
chunk (with empty text), not the empty sequence. -/
theorem c6_counterexample :
    trimChars [' '] = [] ∧ chunkText [' '] defaultChunkOptions ≠ [] := by
  constructor
  · rfl
  · decide

/-! ### Claim C5: ordering of chunk offsets -/

/-- **C5** (amended): under the source's parameter shape
(`overlapSize ≤ minChunkSize ≤ maxChunkSize`, as with the defaults
5000/100000/450000), chunk start offsets strictly increase and end offsets
are non-decreasing, but adjacent chunks are *not* non-overlapping: each
chunk's start offset is only guaranteed to be at least the previous chunk's
end offset *minus the overlap budget* (`chunkRel`). -/
theorem c5_chunk_offsets (text : List Char) (opts : ChunkOptions)
    (h1 : opts.overlapSize ≤ opts.minChunkSize)
    (h2 : opts.minChunkSize ≤ opts.maxChunkSize) :
    List.Chain' (chunkRel opts.overlapSize) (chunkText text opts) := by
  simp only [chunkText]
  split_ifs with he hs
  · simp
  · simp
  · have hfe := chunkTextLoopFuel_eq text opts text.length 0 0 (by omega)
    have hchain := chunkTextLoopFuel_chain text opts h1 h2 text.length 0 0 _ hfe
    rw [List.chain'_map]
    exact List.Chain'.imp (fun a b hab => hab) hchain

/-- Witness for C5 (amended) on `"abc de"` with overlap budget 1. -/
theorem c5_chunk_offsets_witness :
    overlapOpts.overlapSize ≤ overlapOpts.minChunkSize ∧
    overlapOpts.minChunkSize ≤ overlapOpts.maxChunkSize ∧
    List.Chain' (chunkRel overlapOpts.overlapSize) (chunkText tAbcDe overlapOpts) :=
  ⟨by decide, by decide, c5_chunk_offsets tAbcDe overlapOpts (by decide) (by decide)⟩

/-- **C5** fails as stated: chunking `"abc de"` with overlap budget 1 yields
intervals `[0,4), [3,6), [5,6)` — the second chunk starts (3) before the
first one ends (4), so offsets are not non-overlapping. -/
theorem c5_counterexample :
    ¬ List.Chain' (fun a b : Chunk => a.endPosition ≤ b.startPosition)
        (chunkText tAbcDe overlapOpts) := by
  have hct := chunkText_over_eq tAbcDe overlapOpts
      [⟨some ("chunk_0"), ['a', 'b', 'c'], 0, 0, 0, 4, 1⟩,
       ⟨some ("chunk_1"), ['d', 'e'], 1, 0, 3, 6, 1⟩,
       ⟨some ("chunk_2"), ['e'], 2, 0, 5, 6, 1⟩]
      (by decide) (by decide) (by decide)
  rw [hct]
  intro hch
  exact absurd (List.chain'_cons.mp hch).1 (by decide)

/-! ### Claim C1: reconstruction of the source text from the chunks -/

/-- **C1** (amended): concatenating the chunks of an over-limit text in
sequence order, ignoring the overlap region at each boundary, reconstructs
the text only *up to whitespace*: every chunk's stored text is the
whitespace-trimmed slice `trim(T[start..end))`, the chunk intervals are in
strictly increasing start order and cover every non-whitespace character of
the text, but whitespace at interval boundaries (and all-whitespace windows,
which are dropped) is lost, so exact reconstruction fails. -/
theorem c1_reconstruct_up_to_whitespace (text : List Char) (opts : ChunkOptions)
    (hmax : 0 < opts.maxChunkSize) (hlen : opts.maxChunkSize < text.length) :
    (∀ c ∈ chunkText text opts,
        c.text = trimChars (sliceChars text c.startPosition c.endPosition) ∧
        c.endPosition ≤ text.length) ∧
    List.Chain' (fun a b : Chunk => a.startPosition < b.startPosition)
      (chunkText text opts) ∧
    (∀ p, ∀ hp : p < text.length, isJsWhitespace text[p] = false →
        ∃ c ∈ chunkText text opts, c.startPosition ≤ p ∧ p < c.endPosition) := by
  have hfe := chunkTextLoopFuel_eq text opts text.length 0 0 (by omega)
  have hne : text.isEmpty = false := by
    cases text with
    | nil => simp at hlen
    | cons a l => rfl
  simp only [chunkText]
  rw [if_neg (by simp [hne]), if_neg (by omega)]
  refine ⟨?_, ?_, ?_⟩
  · intro c hc
    rw [List.mem_map] at hc
    obtain ⟨c0, hc0, hmapc⟩ := hc
    obtain ⟨_, _, _, _, i5, i6⟩ := chunkTextLoopFuel_mem text opts _ _ _ _ hfe c0 hc0
    subst hmapc
    exact ⟨i6, i5⟩
  · rw [List.chain'_map]
    exact chunkTextLoopFuel_chain_start text opts _ _ _ _ hfe
  · intro p hp hw
    obtain ⟨c, hcm, hp1, hp2⟩ :=
      chunkTextLoopFuel_cover text opts hmax _ _ _ _ hfe p (Nat.zero_le p) hp hw
    exact ⟨_, List.mem_map_of_mem _ hcm, hp1, hp2⟩

/-- Witness for C1 (amended) on `"abc de"` with zero overlap. -/
theorem c1_reconstruct_witness :
    (∀ c ∈ chunkText tAbcDe noOverlapOpts,
        c.text = trimChars (sliceChars tAbcDe c.startPosition c.endPosition) ∧
        c.endPosition ≤ tAbcDe.length) ∧
    List.Chain' (fun a b : Chunk => a.startPosition < b.startPosition)
      (chunkText tAbcDe noOverlapOpts) ∧
    (∀ p, ∀ hp : p < tAbcDe.length, isJsWhitespace tAbcDe[p] = false →
        ∃ c ∈ chunkText tAbcDe noOverlapOpts, c.startPosition ≤ p ∧ p < c.endPosition) :=
  c1_reconstruct_up_to_whitespace tAbcDe noOverlapOpts (by decide) (by decide)

/-- **C1** fails as stated: with a zero overlap budget (no overlap region to
ignore; the two chunk intervals `[0,4)` and `[4,6)` abut exactly), chunking
`"abc de"` stores the trimmed texts `"abc"` and `"de"`, whose concatenation
`"abcde"` loses the boundary space at offset 3 and so does not reconstruct
the input. -/
theorem c1_counterexample :
    noOverlapOpts.maxChunkSize < tAbcDe.length ∧
    List.Chain' (fun a b : Chunk => a.endPosition = b.startPosition)
      (chunkText tAbcDe noOverlapOpts) ∧
    ((chunkText tAbcDe noOverlapOpts).map Chunk.text).flatten ≠ tAbcDe := by
  have hct := chunkText_over_eq tAbcDe noOverlapOpts
      [⟨some ("chunk_0"), ['a', 'b', 'c'], 0, 0, 0, 4, 1⟩,
       ⟨some ("chunk_1"), ['d', 'e'], 1, 0, 4, 6, 1⟩]
      (by decide) (by decide) (by decide)
  refine ⟨by decide, ?_, ?_⟩
  · rw [hct]
    simp [List.chain'_cons]
  · rw [hct]
    decide

/-! ### textFormatter.js -/

/-- A hexadecimal digit (the regex class `[0-9A-Fa-f]`). -/
def isHexDigit (c : Char) : Bool :=
  ('0' ≤ c && c ≤ '9') || ('a' ≤ c && c ≤ 'f') || ('A' ≤ c && c ≤ 'F')

/-- The numeric value of a hexadecimal digit. -/
def hexVal (c : Char) : Nat :=
  if '0' ≤ c && c ≤ '9' then c.toNat - '0'.toNat
  else if 'a' ≤ c && c ≤ 'f' then c.toNat - 'a'.toNat + 10
  else c.toNat - 'A'.toNat + 10

/-- `text.replace(/\\u([0-9A-Fa-f]{4})/g, (m, code) =>
String.fromCharCode(parseInt(code, 16)))`: decode literal `\uXXXX` escape
sequences.  (`Char.ofNat` falls back to `'\0'` on the surrogate range, where
JavaScript would produce a lone UTF-16 surrogate.) -/
def replaceUnicodeEscapes : List Char → List Char
  | '\\' :: 'u' :: h1 :: h2 :: h3 :: h4 :: rest =>
    if isHexDigit h1 && isHexDigit h2 && isHexDigit h3 && isHexDigit h4 then
      Char.ofNat (((hexVal h1 * 16 + hexVal h2) * 16 + hexVal h3) * 16 + hexVal h4) ::
        replaceUnicodeEscapes rest
    else '\\' :: replaceUnicodeEscapes ('u' :: h1 :: h2 :: h3 :: h4 :: rest)
  | c :: rest => c :: replaceUnicodeEscapes rest
  | [] => []

/-- `text.replace(pat, repl)` for a global regex matching the literal string
`pat`: left-to-right, non-overlapping replacement.  All call sites pass a
non-empty `pat`, so every step consumes at least one character; the fuel
argument (initialised to the string length) only makes the recursion
structural so that the kernel can evaluate it. -/
def replaceSubAux (pat repl : List Char) : Nat → List Char → List Char
  | _, [] => []
  | 0, s => s
  | fuel + 1, c :: rest =>
    if pat ≠ [] ∧ pat.isPrefixOf (c :: rest) then
      repl ++ replaceSubAux pat repl fuel ((c :: rest).drop pat.length)
    else c :: replaceSubAux pat repl fuel rest

def replaceSub (pat repl s : List Char) : List Char :=
  replaceSubAux pat repl s.length s

/-- The suffix of `l` strictly after its last `'\n'` (everything the greedy
match of `/\n\s*\n\s*\n/` leaves unconsumed within a whitespace run). -/
def afterLastNl (l : List Char) : List Char :=
  (l.reverse.takeWhile (fun c => !(c == '\n'))).reverse

/-- `text.replace(/\n\s*\n\s*\n/g, '\n\n')`: a greedy match starting at a
`'\n'` extends to the **last** `'\n'` of the following whitespace run,
provided that run contains at least two more newlines; the whole match is
replaced by two newlines and scanning resumes after it.  (Each step consumes
at least one character, so fuel `s.length` suffices.) -/
def collapseTripleNewlinesAux : Nat → List Char → List Char
  | _, [] => []
  | 0, s => s
  | fuel + 1, c :: rest =>
    if c = '\n' ∧ 2 ≤ (rest.takeWhile isJsWhitespace).count '\n' then
      '\n' :: '\n' ::
        collapseTripleNewlinesAux fuel
          (afterLastNl (rest.takeWhile isJsWhitespace) ++
            rest.drop (rest.takeWhile isJsWhitespace).length)
    else c :: collapseTripleNewlinesAux fuel rest

def collapseTripleNewlines (s : List Char) : List Char :=
  collapseTripleNewlinesAux s.length s

/-- `text.replace(/\n\n+/g, '. ')`: a maximal run of at least two newlines
becomes a sentence break. -/
def collapseNewlineRunsAux : Nat → List Char → List Char
  | _, [] => []
  | _, [c] => [c]
  | 0, s => s
  | fuel + 1, c :: d :: rest =>
    if c = '\n' ∧ d = '\n' then
      '.' :: ' ' :: collapseNewlineRunsAux fuel ((d :: rest).dropWhile (fun e => e == '\n'))
    else c :: collapseNewlineRunsAux fuel (d :: rest)

def collapseNewlineRuns (s : List Char) : List Char :=
  collapseNewlineRunsAux s.length s

/-- `text.replace(/\.{2,}/g, '.')`: a maximal run of at least two periods
becomes a single period. -/
def collapseDotRunsAux : Nat → List Char → List Char
  | _, [] => []
  | _, [c] => [c]
  | 0, s => s
  | fuel + 1, c :: d :: rest =>
    if c = '.' ∧ d = '.' then
      '.' :: collapseDotRunsAux fuel ((d :: rest).dropWhile (fun e => e == '.'))
    else c :: collapseDotRunsAux fuel (d :: rest)

def collapseDotRuns (s : List Char) : List Char :=
  collapseDotRunsAux s.length s

/-- `text.replace(/\.\s*\./g, '.')`: a period, a whitespace run and another
period collapse to a single period (the greedy `\s*` takes the whole
whitespace run; characters inside the run are never periods, so only the
position right after the run can close the match). -/
def collapseDotSpaceDotAux : Nat → List Char → List Char
  | _, [] => []
  | 0, s => s
  | fuel + 1, c :: rest =>
    if c = '.' ∧ (rest.drop (rest.takeWhile isJsWhitespace).length).head? = some '.' then
      '.' :: collapseDotSpaceDotAux fuel (rest.drop ((rest.takeWhile isJsWhitespace).length + 1))
    else c :: collapseDotSpaceDotAux fuel rest

def collapseDotSpaceDot (s : List Char) : List Char :=
  collapseDotSpaceDotAux s.length s

/-- `text.replace(/\s{2,}/g, ' ')`: a maximal run of at least two whitespace
characters becomes a single space. -/
def collapseWsRunsAux : Nat → List Char → List Char
  | _, [] => []
  | _, [c] => [c]
  | 0, s => s
  | fuel + 1, c :: d :: rest =>
    if isJsWhitespace c ∧ isJsWhitespace d then
      ' ' :: collapseWsRunsAux fuel ((d :: rest).dropWhile isJsWhitespace)
    else c :: collapseWsRunsAux fuel (d :: rest)

def collapseWsRuns (s : List Char) : List Char :=
  collapseWsRunsAux s.length s

/-- `formatText` from textFormatter.js: decode `\uXXXX`, convert the escaped
sequences `\n \t \r\n \r \' \" \\ \&` to their characters (a tab becomes
four spaces for display), collapse three-plus line breaks to double line
breaks, and trim.  (The `!text || typeof text !== 'string'` guard returns
the empty string, which for string inputs only matters for `""` — on which
the chain below is the identity as well.) -/
def formatText (text : List Char) : List Char :=
  trimChars
    (collapseTripleNewlines
      (replaceSub ['\\', '&'] ['&']
        (replaceSub ['\\', '\\'] ['\\']
          (replaceSub ['\\', '"'] ['"']
            (replaceSub ['\\', '\''] ['\'']
              (replaceSub ['\\', 'r'] ['\n']
                (replaceSub ['\\', 'r', '\\', 'n'] ['\n']
                  (replaceSub ['\\', 't'] [' ', ' ', ' ', ' ']
                    (replaceSub ['\\', 'n'] ['\n']
                      (replaceUnicodeEscapes text))))))))))

/-- `removeQuotes` from textFormatter.js: trim, strip one pair of
surrounding double quotes, then one pair of surrounding single quotes, then
trim again. -/
def removeQuotes (text : List Char) : List Char :=
  let cleaned := trimChars text
  let c2 :=
    if cleaned.head? = some '"' ∧ cleaned.getLast? = some '"' ∧ 1 < cleaned.length then
      (cleaned.drop 1).dropLast
    else cleaned
  let c3 :=
    if c2.head? = some '\'' ∧ c2.getLast? = some '\'' ∧ 1 < c2.length then
      (c2.drop 1).dropLast
    else c2
  trimChars c3

/-- `formatTextForSpeech` from textFormatter.js (the copy that first strips
surrounding quotes): decode escapes (a tab becomes one space), turn line
breaks into sentence pauses, clean up duplicated periods and whitespace,
and trim. -/
def formatTextForSpeech (text : List Char) : List Char :=
  trimChars
    (collapseWsRuns
      (collapseDotSpaceDot
        (collapseDotRuns
          (replaceSub ['\n'] ['.', ' ']
            (collapseNewlineRuns
              (replaceSub ['\\', '&'] ['&']
                (replaceSub ['\\', '\\'] ['\\']
                  (replaceSub ['\\', '"'] ['"']
                    (replaceSub ['\\', '\''] ['\'']
                      (replaceSub ['\\', 'r'] ['\n']
                        (replaceSub ['\\', 'r', '\\', 'n'] ['\n']
                          (replaceSub ['\\', 't'] [' ']
                            (replaceSub ['\\', 'n'] ['\n']
                              (replaceUnicodeEscapes (removeQuotes text)))))))))))))))

/-! ### recombineChunks -/

/-- A processed chunk as consumed by `recombineChunks`: the original chunk
text plus the optional `processedText` / `speechText` / `originalText`
fields set by `processDocumentChunks`. -/
structure PChunk where
  chunkIndex : Nat
  text : List Char
  processedText : Option (List Char)
  speechText : Option (List Char)
  originalText : Option (List Char)
deriving Repr, DecidableEq

/-- JavaScript `a || b` for an optional string `a`: both a missing field and
an empty string are falsy. -/
def jsOr (a : Option (List Char)) (b : List Char) : List Char :=
  match a with
  | some s => if s.isEmpty then b else s
  | none => b

/-- `processedChunks.sort((a, b) => a.chunkIndex - b.chunkIndex)`:
JavaScript's `Array.prototype.sort` is stable and the comparator orders by
`chunkIndex`, so the result is the stable sort by chunk index. -/
def sortChunks (l : List PChunk) : List PChunk :=
  List.insertionSort (fun a b => a.chunkIndex ≤ b.chunkIndex) l

/-- `array.join(sep)`. -/
def joinSep (sep : List Char) : List (List Char) → List Char
  | [] => []
  | [x] => x
  | x :: y :: rest => x ++ sep ++ joinSep sep (y :: rest)

/-- The object returned by `recombineChunks`. -/
structure CombinedResult where
  displayText : List Char
  speechText : List Char
  originalText : List Char
deriving Repr, DecidableEq

/-- `recombineChunks(processedChunks)` from textChunker.js: sort by chunk
index, then join `processedText || text` with paragraph breaks for display,
`speechText || formatTextForSpeech(processedText || text)` with spaces for
speech, and `originalText || text` with paragraph breaks for comparison. -/
def recombineChunks (processedChunks : List PChunk) : CombinedResult :=
  if processedChunks.isEmpty then
    { displayText := [], speechText := [], originalText := [] }
  else
    let sortedChunks := sortChunks processedChunks
    let displayText :=
      trimChars (joinSep ['\n', '\n']
        (sortedChunks.map (fun c => jsOr c.processedText c.text)))
    let speechText :=
      trimChars (joinSep [' ']
        (sortedChunks.map (fun c =>
          jsOr c.speechText (formatTextForSpeech (jsOr c.processedText c.text)))))
    let originalText :=
      trimChars (joinSep ['\n', '\n']
        (sortedChunks.map (fun c => jsOr c.originalText c.text)))
    { displayText := formatText displayText,
      speechText := formatTextForSpeech speechText,
      originalText := formatText originalText }

instance : IsTotal PChunk (fun a b => a.chunkIndex ≤ b.chunkIndex) :=
  ⟨fun a b => Nat.le_total a.chunkIndex b.chunkIndex⟩

instance : IsTrans PChunk (fun a b => a.chunkIndex ≤ b.chunkIndex) :=
  ⟨fun _ _ _ => Nat.le_trans⟩

instance : IsAntisymm PChunk (fun a b : PChunk => a.chunkIndex < b.chunkIndex) :=
  ⟨fun _ _ h1 h2 => absurd h2 (by omega)⟩

theorem pairwise_and {α : Type} {R S : α → α → Prop} :
    ∀ {l : List α}, l.Pairwise R → l.Pairwise S →
      l.Pairwise (fun a b => R a b ∧ S a b)
  | [], _, _ => List.Pairwise.nil
  | _ :: _, h1, h2 => by
    rcases List.pairwise_cons.mp h1 with ⟨ha1, ht1⟩
    rcases List.pairwise_cons.mp h2 with ⟨ha2, ht2⟩
    exact List.pairwise_cons.mpr ⟨fun b hb => ⟨ha1 b hb, ha2 b hb⟩, pairwise_and ht1 ht2⟩

/-- Sorting by chunk index is permutation-invariant when the indices are
pairwise distinct: both sorts are strictly sorted by index and are
permutations of one another, hence equal. -/
theorem sortChunks_eq_of_perm (l₁ l₂ : List PChunk) (hp : l₁.Perm l₂)
    (hd : (l₁.map PChunk.chunkIndex).Nodup) :
    sortChunks l₁ = sortChunks l₂ := by
  have hperm : (sortChunks l₁).Perm (sortChunks l₂) :=
    ((List.perm_insertionSort _ l₁).trans hp).trans (List.perm_insertionSort _ l₂).symm
  have hstrict : ∀ l : List PChunk, (l.map PChunk.chunkIndex).Nodup →
      List.Sorted (fun a b : PChunk => a.chunkIndex < b.chunkIndex) (sortChunks l) := by
    intro l hl
    have hs : List.Sorted (fun a b : PChunk => a.chunkIndex ≤ b.chunkIndex) (sortChunks l) :=
      List.sorted_insertionSort _ l
    have hd2 : ((sortChunks l).map PChunk.chunkIndex).Nodup :=
      (((List.perm_insertionSort _ l).map PChunk.chunkIndex).symm).nodup hl
    have hne : (sortChunks l).Pairwise (fun a b => a.chunkIndex ≠ b.chunkIndex) :=
      List.pairwise_map.mp hd2
    exact (pairwise_and hs hne).imp (fun h => lt_of_le_of_ne h.1 h.2)
  have hd₂ : (l₂.map PChunk.chunkIndex).Nodup := ((hp.map PChunk.chunkIndex)).nodup hd
  exact List.eq_of_perm_of_sorted hperm (hstrict l₁ hd) (hstrict l₂ hd₂)

/-- **C2**: with pairwise distinct chunk indices, `recombineChunks` returns
the same `displayText`, `speechText` and `originalText` on every permutation
of its input (it sorts by chunk index before joining), and the first chunk
of the sorted sequence — the one whose content comes first in all three
joined texts — is one with the smallest chunk index. -/
theorem c2_recombine_order_independent (l₁ l₂ : List PChunk) (hp : l₁.Perm l₂)
    (hd : (l₁.map PChunk.chunkIndex).Nodup) :
    recombineChunks l₁ = recombineChunks l₂ ∧
    (∀ c, (sortChunks l₁).head? = some c → ∀ d ∈ l₁, c.chunkIndex ≤ d.chunkIndex) := by
  constructor
  · have hs := sortChunks_eq_of_perm l₁ l₂ hp hd
    rcases l₁ with _ | ⟨a, t⟩
    · rw [← hp.nil_eq]
    · have h2 : l₂.isEmpty = false := by
        cases hl2 : l₂ with
        | nil =>
          subst hl2
          exact absurd hp.eq_nil (by simp)
        | cons b u => rfl
      simp only [recombineChunks, List.isEmpty_cons, h2, Bool.false_eq_true,
        if_false, hs]
  · intro c hc d hdm
    have hcm : sortChunks l₁ ≠ [] := by
      intro h
      rw [h] at hc
      simp at hc
    have hsorted : List.Sorted (fun a b : PChunk => a.chunkIndex ≤ b.chunkIndex) (sortChunks l₁) :=
      List.sorted_insertionSort _ l₁
    have hdm2 : d ∈ sortChunks l₁ := (List.perm_insertionSort _ l₁).symm.subset hdm
    rcases hsl : sortChunks l₁ with _ | ⟨x, xs⟩
    · exact absurd hsl hcm
    · rw [hsl] at hc hdm2 hsorted
      simp only [List.head?_cons, Option.some.injEq] at hc
      subst hc
      rcases List.mem_cons.mp hdm2 with h | h
      · subst h
        exact le_rfl
      · exact (List.sorted_cons.mp hsorted).1 d h

/-- The two processed chunks of the spec's out-of-order example: the chunk
with index 1 arrives before the chunk with index 0. -/
def pchunkFirst : PChunk :=
  { chunkIndex := 0, text := ['f', 'i', 'r', 's', 't'],
    processedText := some ['F', 'i', 'r', 's', 't'],
    speechText := none, originalText := none }

def pchunkSecond : PChunk :=
  { chunkIndex := 1, text := ['s', 'e', 'c', 'o', 'n', 'd'],
    processedText := some ['S', 'e', 'c', 'o', 'n', 'd'],
    speechText := none, originalText := none }

/-- Witness for C2: chunk 1's response listed before chunk 0's still
recombines identically, and chunk 0's content is placed first. -/
theorem c2_recombine_witness :
    (recombineChunks [pchunkSecond, pchunkFirst] =
        recombineChunks [pchunkFirst, pchunkSecond] ∧
      (∀ c, (sortChunks [pchunkSecond, pchunkFirst]).head? = some c →
        ∀ d ∈ [pchunkSecond, pchunkFirst], c.chunkIndex ≤ d.chunkIndex)) ∧
    (recombineChunks [pchunkSecond, pchunkFirst]).displayText =
      ['F', 'i', 'r', 's', 't', '\n', '\n', 'S', 'e', 'c', 'o', 'n', 'd'] :=
  ⟨c2_recombine_order_independent [pchunkSecond, pchunkFirst]
      [pchunkFirst, pchunkSecond] (by decide) (by decide),
   by decide⟩

/-! ### api.js `processDocumentChunks` and the backend
`SummarizeDocumentFunction.ProcessDocumentChunksAsync` -/

/-- A `DocumentChunk` of the backend request model.  `stop` is the source's
`End` property. -/
structure DocumentChunk where
  id : String
  seq : Nat
  start : Nat
  stop : Nat
  tokenEstimate : Nat
  text : List Char
deriving Repr, DecidableEq

/-- A `ProcessedChunk` of the backend response model (also the element shape
of `result.chunks` consumed by the frontend).  `simplificationRatio` models
the C# `double` division over the rationals; `processedAtMs` models the
`ProcessedAt`/`processedAt` timestamp in milliseconds. -/
structure ApiChunk where
  id : String
  seq : Nat
  start : Nat
  stop : Nat
  originalTokenEstimate : Nat
  originalText : List Char
  simplifiedText : List Char
  simplificationRatio : Rat
  readingLevel : String
  processedAtMs : Int
  error : Option String
deriving Repr, DecidableEq

/-- The per-chunk `try`/`catch` body of `ProcessDocumentChunksAsync` from
SummarizeDocumentFunction.cs.  The
`ITextSimplificationService.SimplifyTextAsync` call is modelled by
`simplify`, whose `Except.error` case stands for a thrown exception; `now`
stands for `DateTime.UtcNow`.  A failing chunk falls back to its original
text with `Error` set instead of failing the whole document. -/
def processBackendChunk (simplify : List Char → Except String (List Char)) (now : Int)
    (chunk : DocumentChunk) : ApiChunk :=
  match simplify chunk.text with
  | Except.ok simplifiedText =>
    { id := chunk.id, seq := chunk.seq, start := chunk.start, stop := chunk.stop,
      originalTokenEstimate := chunk.tokenEstimate, originalText := chunk.text,
      simplifiedText := simplifiedText,
      simplificationRatio := (simplifiedText.length : Rat) / (chunk.text.length : Rat),
      readingLevel := ("accessible"), processedAtMs := now, error := none }
  | Except.error _ =>
    { id := chunk.id, seq := chunk.seq, start := chunk.start, stop := chunk.stop,
      originalTokenEstimate := chunk.tokenEstimate, originalText := chunk.text,
      simplifiedText := chunk.text,
      simplificationRatio := 1,
      readingLevel := ("original"), processedAtMs := now,
      error := some ("Simplification failed") }

/-- `ProcessDocumentChunksAsync` from SummarizeDocumentFunction.cs: the
sequential `foreach` over the request chunks, one response chunk appended
per request chunk. -/
def processDocumentChunksAsync (chunks : List DocumentChunk)
    (simplify : List Char → Except String (List Char)) (now : Int) : List ApiChunk :=
  chunks.map (processBackendChunk simplify now)

/-- The `summary` object of the backend response. -/
structure ProcessingSummary where
  totalChunks : Nat
  totalTokensEstimate : Nat
deriving Repr, DecidableEq

/-- The parsed response of `summarizeDocument`. -/
structure ApiResult where
  docId : String
  processedAtMs : Int
  summary : ProcessingSummary
  chunks : List ApiChunk
deriving Repr, DecidableEq

/-- JavaScript `!!x` for an optional string: missing and empty are falsy. -/
def jsTruthy : Option String → Bool
  | none => false
  | some s => !s.isEmpty

/-- One element of the `processedChunks` array built by
`processDocumentChunks`: the spread of the original chunk at the same index
(`base`, `none` when the index is out of range) plus the fields added from
the API response.  In the transport-failure fallback the fields
`originalText`/`speechText`/`processingTime`/`apiResponse` are not set
(`none`). -/
structure ProcessedChunkFE where
  base : Option Chunk
  processedText : List Char
  originalText : Option (List Char)
  speechText : Option (List Char)
  processingTime : Option Int
  apiResponse : Option ApiChunk
  error : Option String
  processingFailed : Bool
deriving Repr, DecidableEq

/-- The `chunk` payload of an error entry: the processed chunk in the
success path, the raw input chunk (`chunks[0]`, possibly `undefined`) in the
transport-failure path. -/
inductive ErrChunkPayload where
  | processed (c : ProcessedChunkFE)
  | raw (c : Option Chunk)
deriving Repr, DecidableEq

/-- An element of the `errors` array of `processDocumentChunks`. -/
structure ChunkError where
  chunkIndex : Nat
  error : Option String
  chunk : ErrChunkPayload
deriving Repr, DecidableEq

/-- The object returned by `processDocumentChunks`.  `processingStats` is
absent in the transport-failure fallback. -/
structure ProcessResult where
  processedChunks : List ProcessedChunkFE
  errors : List ChunkError
  totalChunks : Nat
  successfulChunks : Nat
  processingStats : Option ProcessingSummary
deriving Repr, DecidableEq

/-- `processDocumentChunks` from api.js.  The single awaited
`summarizeDocument` call is modelled by its outcome: `Except.error message`
when the fetch or response handling threw (a transport or application
failure of the whole call), `Except.ok result` otherwise.  The `try` block
is the `ok` branch; the `catch` block is the `error` branch — the function
itself always returns a `ProcessResult` and never throws. -/
def processDocumentChunks (chunks : List Chunk) (outcome : Except String ApiResult) :
    ProcessResult :=
  match outcome with
  | Except.ok result =>
    let processedChunks := result.chunks.enum.map (fun p =>
      { base := chunks[p.1]?,
        processedText := formatText p.2.simplifiedText,
        originalText := some (formatText p.2.originalText),
        speechText := some (formatTextForSpeech p.2.simplifiedText),
        processingTime := some (p.2.processedAtMs - result.processedAtMs),
        apiResponse := some p.2,
        error := p.2.error,
        processingFailed := jsTruthy p.2.error })
    { processedChunks := processedChunks,
      errors := (processedChunks.filter (fun c => c.processingFailed)).enum.map (fun p =>
        { chunkIndex := p.1, error := p.2.error, chunk := ErrChunkPayload.processed p.2 }),
      totalChunks := result.summary.totalChunks,
      successfulChunks := (processedChunks.filter (fun c => !c.processingFailed)).length,
      processingStats := some result.summary }
  | Except.error message =>
    let fallbackChunks := chunks.map (fun chunk =>
      { base := some chunk,
        processedText := chunk.text,
        originalText := none,
        speechText := none,
        processingTime := none,
        apiResponse := none,
        error := some message,
        processingFailed := true })
    { processedChunks := fallbackChunks,
      errors := [{ chunkIndex := 0, error := some message,
                   chunk := ErrChunkPayload.raw chunks.head? }],
      totalChunks := chunks.length,
      successfulChunks := 0,
      processingStats := none }

theorem length_filter_add_length_filter_not {α : Type} (p : α → Bool) (l : List α) :
    (l.filter p).length + (l.filter (fun a => !(p a))).length = l.length := by
  induction l with
  | nil => rfl
  | cons a t ih =>
    by_cases h : p a
    · simp [List.filter_cons, h]
      omega
    · simp [List.filter_cons, h]
      omega

/-- **C4**: a transport or application failure of the remote simplification
call never fails the whole document.
(i) If the single `summarizeDocument` call throws, `processDocumentChunks`
still returns a result: every chunk is marked failed with its original text
retained as its processed text, the error list is non-empty, and the
aggregate stats report 0 successful chunks out of `chunks.length`.
(ii) On a successful call, a chunk is marked failed exactly when its
response carries an error, and the aggregate stats are per-chunk:
successes plus failures equal the number of processed chunks.
(iii) In the backend, the batch always returns one response chunk per
request chunk; a chunk whose simplification throws keeps its original text
as `SimplifiedText` with `Error` set, and a successful chunk carries the
simplified text with no error. -/
theorem c4_failures_never_fatal (chunks : List Chunk) (message : String)
    (result : ApiResult) (bchunks : List DocumentChunk)
    (simplify : List Char → Except String (List Char)) (now : Int) :
    ((processDocumentChunks chunks (Except.error message)).processedChunks.map
        (fun pc => pc.processedText) = chunks.map Chunk.text ∧
      (∀ pc ∈ (processDocumentChunks chunks (Except.error message)).processedChunks,
        pc.processingFailed = true ∧ pc.error = some message) ∧
      (processDocumentChunks chunks (Except.error message)).errors ≠ [] ∧
      (processDocumentChunks chunks (Except.error message)).successfulChunks = 0 ∧
      (processDocumentChunks chunks (Except.error message)).totalChunks = chunks.length) ∧
    ((∀ pc ∈ (processDocumentChunks chunks (Except.ok result)).processedChunks,
        pc.processingFailed = jsTruthy pc.error) ∧
      (processDocumentChunks chunks (Except.ok result)).successfulChunks +
        ((processDocumentChunks chunks (Except.ok result)).processedChunks.filter
          (fun pc => pc.processingFailed)).length =
        (processDocumentChunks chunks (Except.ok result)).processedChunks.length) ∧
    ((processDocumentChunksAsync bchunks simplify now).length = bchunks.length ∧
      (∀ (i : Nat) (c : DocumentChunk), bchunks[i]? = some c →
        ∃ pc : ApiChunk, (processDocumentChunksAsync bchunks simplify now)[i]? = some pc ∧
          pc.originalText = c.text ∧
          (∀ e, simplify c.text = Except.error e →
            pc.simplifiedText = c.text ∧ pc.error = some ("Simplification failed")) ∧
          (∀ s, simplify c.text = Except.ok s →
            pc.simplifiedText = s ∧ pc.error = none))) := by
  refine ⟨⟨?_, ?_, ?_, rfl, rfl⟩, ⟨?_, ?_⟩, ?_, ?_⟩
  · simp only [processDocumentChunks, List.map_map]
    rfl
  · intro pc hpc
    simp only [processDocumentChunks, List.mem_map] at hpc
    obtain ⟨c, _, hrfl⟩ := hpc
    subst hrfl
    exact ⟨rfl, rfl⟩
  · simp [processDocumentChunks]
  · intro pc hpc
    simp only [processDocumentChunks, List.mem_map] at hpc
    obtain ⟨p, _, hrfl⟩ := hpc
    subst hrfl
    rfl
  · show ((processDocumentChunks chunks (Except.ok result)).processedChunks.filter
        (fun pc => !pc.processingFailed)).length + _ = _
    rw [Nat.add_comm]
    exact length_filter_add_length_filter_not _ _
  · simp [processDocumentChunksAsync]
  · intro i c hic
    refine ⟨processBackendChunk simplify now c, ?_, ?_, ?_, ?_⟩
    · simp [processDocumentChunksAsync, hic]
    · unfold processBackendChunk
      cases simplify c.text with
      | ok s => rfl
      | error e => rfl
    · intro e he
      unfold processBackendChunk
      rw [he]
      exact ⟨rfl, rfl⟩
    · intro s hs
      unfold processBackendChunk
      rw [hs]
      exact ⟨rfl, rfl⟩

/-- A concrete input chunk for the C4 witness. -/
def chunkW : Chunk :=
  { id := some ("chunk_0"), text := ['h', 'i'], chunkIndex := 0, totalChunks := 1,
    startPosition := 0, endPosition := 2, wordCount := 1 }

/-- A concrete backend request chunk whose simplification always throws. -/
def bchunkW : DocumentChunk :=
  { id := ("chunk_0"), seq := 0, start := 0, stop := 2, tokenEstimate := 1,
    text := ['h', 'i'] }

/-- Witness for C4: one chunk, transport failure `"network down"`, and a
backend batch whose simplifier throws on every chunk. -/
theorem c4_failures_never_fatal_witness :
    (processDocumentChunks [chunkW] (Except.error ("network down"))).successfulChunks = 0 ∧
    (processDocumentChunks [chunkW] (Except.error ("network down"))).totalChunks = 1 ∧
    (processDocumentChunks [chunkW] (Except.error ("network down"))).processedChunks.map
      (fun pc => pc.processedText) = [['h', 'i']] ∧
    ∃ pc : ApiChunk, (processDocumentChunksAsync [bchunkW]
        (fun _ => Except.error ("boom")) 0)[0]? = some pc ∧
      pc.simplifiedText = bchunkW.text ∧ pc.error = some ("Simplification failed") := by
  have h := c4_failures_never_fatal [chunkW] ("network down")
    { docId := ("doc"), processedAtMs := 0,
      summary := { totalChunks := 1, totalTokensEstimate := 1 }, chunks := [] }
    [bchunkW] (fun _ => Except.error ("boom")) 0
  refine ⟨h.1.2.2.2.1, h.1.2.2.2.2, h.1.1, ?_⟩
  obtain ⟨pc, hpc, _, herr, _⟩ := h.2.2.2 0 bchunkW (by decide)
  exact ⟨pc, hpc, (herr ("boom") rfl).1, (herr ("boom") rfl).2⟩

/-! ### AudioPlayer.jsx — the speech/highlight synchronizer -/

/-- The `AudioPlayer` component state relevant to playback and word
highlighting, plus the observable effect of the `onWordChange` /
`onWordHighlight` callbacks: `highlightedWord` is the last index the
callbacks delivered to the caller (`-1` = no word highlighted).  React
state setters only take effect after the event handler returns; within a
handler, reads of `isPaused` see the value captured at render time, which
the model makes explicit where it matters (`capturedPaused`). -/
structure PlayerState where
  isPlaying : Bool
  isPaused : Bool
  currentTime : Int
  timerActive : Bool
  startFromWordIndex : Nat
  pausedWordIndex : Int
  currentWordIndex : Int
  highlightedWord : Int
deriving Repr, DecidableEq

/-- `stopWordTracking` from AudioPlayer.jsx: notify the highlight callbacks
with `-1` and clear `pausedWordIndex` — unless paused, to keep the last
highlighted word visible.  `capturedPaused` is the value of `isPaused` the
function closed over at its render. -/
def stopWordTracking (capturedPaused : Bool) (s : PlayerState) : PlayerState :=
  if !capturedPaused then
    { s with highlightedWord := -1, pausedWordIndex := -1 }
  else s

/-- `handlePause` from AudioPlayer.jsx: pause the engine, flip the flags,
clear the timer.  It deliberately does not call `stopWordTracking`, so the
highlight callbacks are not invoked and the highlighted word stays. -/
def handlePause (s : PlayerState) : PlayerState :=
  { s with isPaused := true, isPlaying := false, timerActive := false }

/-- `handleStop` from AudioPlayer.jsx: cancel the engine, reset the flags,
the time and the timer, call `stopWordTracking()` — which reads the
*render-time* `isPaused`, i.e. the value from before this handler ran —
and reset `currentWordIndex`. -/
def handleStop (s : PlayerState) : PlayerState :=
  let s1 := { s with isPlaying := false, isPaused := false, currentTime := 0,
                     timerActive := false }
  let s2 := stopWordTracking s.isPaused s1
  { s2 with currentWordIndex := -1 }

/-- A state paused on word 5 (the reader pressed pause mid-playback). -/
def pausedOn5 : PlayerState :=
  { isPlaying := false, isPaused := true, currentTime := 7, timerActive := false,
    startFromWordIndex := 0, pausedWordIndex := 5, currentWordIndex := 5,
    highlightedWord := 5 }

/-- A state playing word 5. -/
def playingOn5 : PlayerState :=
  { isPlaying := true, isPaused := false, currentTime := 7, timerActive := true,
    startFromWordIndex := 0, pausedWordIndex := -1, currentWordIndex := 5,
    highlightedWord := 5 }

/-- **C7** (code bug): pausing preserves the highlighted word, and stopping
from Playing clears it to `-1` — but stopping from Paused does **not**
notify the highlight callbacks: `stopWordTracking`'s `!isPaused` guard
reads the render-time `isPaused = true` (the `setIsPaused(false)` earlier
in `handleStop` does not change the value the handler closed over), so the
highlighted word survives a stop from the paused state even though
`currentWordIndex` is reset. -/
theorem c7_stop_from_paused_keeps_highlight :
    (handlePause playingOn5).highlightedWord = 5 ∧
    (handleStop playingOn5).highlightedWord = -1 ∧
    (handleStop playingOn5).isPlaying = false ∧
    (handleStop pausedOn5).isPlaying = false ∧
    (handleStop pausedOn5).isPaused = false ∧
    (handleStop pausedOn5).currentWordIndex = -1 ∧
    (handleStop pausedOn5).highlightedWord = 5 :=
  ⟨rfl, rfl, rfl, rfl, rfl, rfl, rfl⟩

/-- The `utterance.onerror` handler installed by `handlePlay`:
`"interrupted"` errors are swallowed; any other error resets the playback
flags, the timer and `currentWordIndex`, and calls `stopWordTracking`
(whose `capturedPaused` is the `isPaused` value the handler closed over
when the utterance was created — always `false` in `handlePlay`, which only
creates an utterance in its non-paused branch). -/
def handlePlayOnError (capturedPaused : Bool) (error : String) (s : PlayerState) :
    PlayerState :=
  if error = ("interrupted") then s
  else
    let s1 := { s with isPlaying := false, isPaused := false, timerActive := false }
    let s2 := stopWordTracking capturedPaused s1
    { s2 with currentWordIndex := -1 }

/-- The `utterance.onerror` handler installed by `playFromWord`: as above,
but an error on an utterance that is no longer `speechRef.current` is
deliberately ignored, and `startFromWordIndex` / `pausedWordIndex` are also
reset. -/
def playFromWordOnError (capturedPaused : Bool) (isCurrent : Bool) (error : String)
    (s : PlayerState) : PlayerState :=
  if error = ("interrupted") then s
  else if isCurrent then
    let s1 := { s with isPlaying := false, isPaused := false, timerActive := false }
    let s2 := stopWordTracking capturedPaused s1
    { s2 with startFromWordIndex := 0, pausedWordIndex := -1, currentWordIndex := -1 }
  else s

/-- **C8** (amended): `"interrupted"` engine errors are swallowed without
any state change by both error handlers.  Any other error on the *current*
utterance resets the synchronizer to Stopped (not playing, not paused,
timer cleared, internal word index reset) and clears the word highlight
provided the utterance was created from a non-paused render (always the
case for `handlePlay`'s utterances); an error on a superseded utterance of
`playFromWord` is ignored entirely. -/
theorem c8_engine_error_handling (capturedPaused isCurrent : Bool) (error : String)
    (s : PlayerState) :
    (error = ("interrupted") →
      handlePlayOnError capturedPaused error s = s ∧
      playFromWordOnError capturedPaused isCurrent error s = s) ∧
    (error ≠ ("interrupted") →
      (handlePlayOnError capturedPaused error s).isPlaying = false ∧
      (handlePlayOnError capturedPaused error s).isPaused = false ∧
      (handlePlayOnError capturedPaused error s).timerActive = false ∧
      (handlePlayOnError capturedPaused error s).currentWordIndex = -1 ∧
      (capturedPaused = false →
        (handlePlayOnError capturedPaused error s).highlightedWord = -1)) ∧
    (error ≠ ("interrupted") → isCurrent = true →
      (playFromWordOnError capturedPaused isCurrent error s).isPlaying = false ∧
      (playFromWordOnError capturedPaused isCurrent error s).isPaused = false ∧
      (playFromWordOnError capturedPaused isCurrent error s).timerActive = false ∧
      (playFromWordOnError capturedPaused isCurrent error s).currentWordIndex = -1 ∧
      (capturedPaused = false →
        (playFromWordOnError capturedPaused isCurrent error s).highlightedWord = -1)) ∧
    (error ≠ ("interrupted") → isCurrent = false →
      playFromWordOnError capturedPaused isCurrent error s = s) := by
  refine ⟨?_, ?_, ?_, ?_⟩
  · intro he
    constructor
    · simp [handlePlayOnError, he]
    · simp [playFromWordOnError, he]
  · intro he
    cases capturedPaused <;>
      simp [handlePlayOnError, stopWordTracking, he]
  · intro he hc
    subst hc
    cases capturedPaused <;>
      simp [playFromWordOnError, stopWordTracking, he]
  · intro he hc
    subst hc
    simp [playFromWordOnError, he]

/-- Witness for C8 (amended): a `"canceled"` error on the current
`playFromWord` utterance (created non-paused) stops playback and clears the
highlight, while an `"interrupted"` error is swallowed. -/
theorem c8_engine_error_handling_witness :
    ("canceled" : String) ≠ ("interrupted") ∧
    (playFromWordOnError false true ("canceled") playingOn5).isPlaying = false ∧
    (playFromWordOnError false true ("canceled") playingOn5).highlightedWord = -1 ∧
    handlePlayOnError false ("interrupted") playingOn5 = playingOn5 := by
  have h := c8_engine_error_handling false true ("canceled") playingOn5
  have h2 := c8_engine_error_handling false true ("interrupted") playingOn5
  exact ⟨by decide, (h.2.2.1 (by decide) rfl).1,
    (h.2.2.1 (by decide) rfl).2.2.2.2 rfl, (h2.1 rfl).1⟩

/-- **C8** fails as stated: a non-`"interrupted"` error (`"canceled"`) on a
`playFromWord` utterance that has been superseded does *not* reset the
synchronizer — the handler deliberately ignores errors on old utterances
and playback state is unchanged (still playing). -/
theorem c8_counterexample :
    ("canceled" : String) ≠ ("interrupted") ∧
    playFromWordOnError false false ("canceled") playingOn5 = playingOn5 ∧
    (playFromWordOnError false false ("canceled") playingOn5).isPlaying = true :=
  ⟨by decide, rfl, rfl⟩

/-- A speech utterance: its text and the word offset that word tracking was
started with (`startWordTracking(utterance, startWordOffset)`). -/
structure Utterance where
  text : List Char
  startWordOffset : Nat
deriving Repr, DecidableEq

/-- The observable speech-engine calls of `playFromWord`. -/
inductive SpeechEffect where
  | cancel
  | speak (u : Utterance)
deriving Repr, DecidableEq

/-- `playFromWord(wordIndex)` from AudioPlayer.jsx.  `textToSpeak` is
`speechText || text` and `words` is its whitespace split.  The guard
returns immediately — state unchanged, no engine call — for empty text,
no words, or an out-of-range index.  Otherwise the current utterance is
cancelled, the timer cleared, tracking stopped (`stopWordTracking` reads
the render-time `isPaused`), the state set to playing, and — after the
100ms delay, modelled as part of the same transition — the starting word
is highlighted immediately and a new utterance of the words from
`wordIndex` onward is spoken with word-tracking offset `wordIndex`. -/
def playFromWord (textToSpeak : List Char) (wordIndex : Int) (s : PlayerState) :
    PlayerState × List SpeechEffect :=
  let words := splitWs textToSpeak
  if textToSpeak = [] ∨ words.length = 0 ∨ (words.length : Int) ≤ wordIndex ∨
      wordIndex < 0 then
    (s, [])
  else
    let s1 := stopWordTracking s.isPaused { s with timerActive := false }
    let s2 := { s1 with isPlaying := true, isPaused := false }
    let i := wordIndex.toNat
    let textFromWord := joinSep [' '] (words.drop i)
    let s3 := { s2 with startFromWordIndex := i, pausedWordIndex := -1, currentTime := 0 }
    let s4 := { s3 with highlightedWord := (i : Int) }
    if (trimChars textFromWord).length > 0 then
      ({ s4 with isPlaying := true, isPaused := false, timerActive := true },
       [SpeechEffect.cancel,
        SpeechEffect.speak { text := textFromWord, startWordOffset := i }])
    else (s4, [SpeechEffect.cancel])

/-- **C10**: out-of-range seeks are rejected up front: for a negative word
index, an index at or beyond the word count, or empty text to speak,
`playFromWord` returns immediately — the state is unchanged and no engine
call (neither cancel nor speak) is made. -/
theorem c10_playFromWord_guard (textToSpeak : List Char) (wordIndex : Int)
    (s : PlayerState)
    (h : wordIndex < 0 ∨ ((splitWs textToSpeak).length : Int) ≤ wordIndex ∨
      textToSpeak = []) :
    playFromWord textToSpeak wordIndex s = (s, []) := by
  have hcond : textToSpeak = [] ∨ (splitWs textToSpeak).length = 0 ∨
      ((splitWs textToSpeak).length : Int) ≤ wordIndex ∨ wordIndex < 0 := by
    rcases h with h | h | h
    · exact Or.inr (Or.inr (Or.inr h))
    · exact Or.inr (Or.inr (Or.inl h))
    · exact Or.inl h
  simp only [playFromWord]
  rw [if_pos hcond]

/-- Witness for C10: seeking to word 5 of the two-character text `"hi"`
(one word) does nothing. -/
theorem c10_playFromWord_guard_witness :
    (((splitWs ['h', 'i']).length : Int) ≤ 5) ∧
    playFromWord ['h', 'i'] 5 playingOn5 = (playingOn5, []) :=
  ⟨by decide,
   c10_playFromWord_guard ['h', 'i'] 5 playingOn5 (Or.inr (Or.inl (by decide)))⟩

/-- Every word produced by `splitWs` is non-empty and whitespace-free. -/
theorem splitWsAux_words :
    ∀ (l acc : List Char), (∀ c ∈ acc, isJsWhitespace c = false) →
      ∀ w ∈ splitWsAux l acc, w ≠ [] ∧ ∀ c ∈ w, isJsWhitespace c = false
  | [], acc, hacc => by
    intro w hw
    simp only [splitWsAux] at hw
    split at hw
    · simp at hw
    · rename_i hne
      simp only [List.mem_singleton] at hw
      subst hw
      refine ⟨?_, ?_⟩
      · intro hnil
        rw [List.reverse_eq_nil_iff] at hnil
        subst hnil
        simp at hne
      · intro c hc
        exact hacc c (List.mem_reverse.mp hc)
  | a :: rest, acc, hacc => by
    intro w hw
    simp only [splitWsAux] at hw
    split at hw
    · split at hw
      · exact splitWsAux_words rest [] (by simp) w hw
      · rename_i hne
        rcases List.mem_cons.mp hw with hh | ht
        · subst hh
          refine ⟨?_, ?_⟩
          · intro hnil
            rw [List.reverse_eq_nil_iff] at hnil
            subst hnil
            simp at hne
          · intro c hc
            exact hacc c (List.mem_reverse.mp hc)
        · exact splitWsAux_words rest [] (by simp) w ht
    · rename_i haws
      refine splitWsAux_words rest (a :: acc) ?_ w hw
      intro c hc
      rcases List.mem_cons.mp hc with hh | ht
      · subst hh
        simpa using haws
      · exact hacc c ht

theorem splitWs_words (l : List Char) :
    ∀ w ∈ splitWs l, w ≠ [] ∧ ∀ c ∈ w, isJsWhitespace c = false :=
  splitWsAux_words l [] (by simp)

/-- Joining a non-empty, whitespace-free first word with anything yields a
string that does not trim to nothing. -/
theorem trimChars_joinSep_ne_nil (w : List Char) (rest : List (List Char))
    (hw : w ≠ []) (hwf : ∀ c ∈ w, isJsWhitespace c = false) :
    trimChars (joinSep [' '] (w :: rest)) ≠ [] := by
  intro h
  have hall := (trimChars_eq_nil_iff _).mp h
  rcases hw2 : w with _ | ⟨c0, w2⟩
  · exact hw hw2
  · subst hw2
    have hc0 : c0 ∈ joinSep [' '] ((c0 :: w2) :: rest) := by
      cases rest with
      | nil => exact List.mem_cons_self _ _
      | cons y ys =>
        simp only [joinSep, List.append_assoc]
        exact List.mem_append_left _ (List.mem_cons_self _ _)
    have hws := hall c0 hc0
    rw [hwf c0 (List.mem_cons_self _ _)] at hws
    simp at hws

/-- The `utterance.onboundary` handler installed by `startWordTracking`, for
a `'word'` boundary event: from the character offset `charIndex` into the
utterance's text it computes `relativeWordIndex` — the number of
whitespace-delimited words of `spokenText.substring(0, charIndex)` — and
reports `startWordOffset + relativeWordIndex` to the `onWordChange` /
`onWordHighlight` callbacks provided that index is below the total word
count of the full text (`words`); otherwise nothing is reported. -/
def onBoundaryWordEvent (words : List (List Char)) (spokenText : List Char)
    (startWordOffset charIndex : Nat) : Option Nat :=
  let relativeWordIndex := (splitWs (trimChars (spokenText.take charIndex))).length
  let absoluteWordIndex := startWordOffset + relativeWordIndex
  if absoluteWordIndex < words.length then some absoluteWordIndex else none

/-- **C3**: seek-to-word(`i`) speaks exactly the words from `i` onward with
word-tracking offset `i`; a subsequent word-boundary event at character
offset `c` into that utterance reports (when it reports at all) the
absolute index `i + (count of whitespace-delimited words of the spoken
substring before offset c)`; and a boundary event at character offset 0
immediately after the seek reports exactly `i`. -/
theorem c3_boundary_word_index (textToSpeak : List Char) (i : Nat)
    (hi : i < (splitWs textToSpeak).length) :
    (∀ s : PlayerState, (playFromWord textToSpeak (i : Int) s).2 =
      [SpeechEffect.cancel,
       SpeechEffect.speak { text := joinSep [' '] ((splitWs textToSpeak).drop i),
                            startWordOffset := i }]) ∧
    (∀ c : Nat,
      onBoundaryWordEvent (splitWs textToSpeak)
          (joinSep [' '] ((splitWs textToSpeak).drop i)) i c =
        let relativeWordIndex := (splitWs (trimChars
          ((joinSep [' '] ((splitWs textToSpeak).drop i)).take c))).length
        if i + relativeWordIndex < (splitWs textToSpeak).length then
          some (i + relativeWordIndex)
        else none) ∧
    onBoundaryWordEvent (splitWs textToSpeak)
        (joinSep [' '] ((splitWs textToSpeak).drop i)) i 0 = some i := by
  refine ⟨?_, fun c => rfl, ?_⟩
  · intro s
    have hne : textToSpeak ≠ [] := by
      intro h
      subst h
      simp [splitWs, splitWsAux] at hi
    have hguard : ¬ (textToSpeak = [] ∨ (splitWs textToSpeak).length = 0 ∨
        ((splitWs textToSpeak).length : Int) ≤ (i : Int) ∨ (i : Int) < 0) := by
      push_neg
      refine ⟨hne, by omega, ?_, by omega⟩
      exact_mod_cast hi
    obtain ⟨w, ws, hws⟩ : ∃ w ws, (splitWs textToSpeak).drop i = w :: ws := by
      rcases hd : (splitWs textToSpeak).drop i with _ | ⟨w, ws⟩
      · rw [List.drop_eq_nil_iff] at hd
        omega
      · exact ⟨w, ws, rfl⟩
    have hwmem : w ∈ splitWs textToSpeak := by
      have : w ∈ (splitWs textToSpeak).drop i := by
        rw [hws]
        exact List.mem_cons_self _ _
      exact (List.drop_subset _ _) this
    obtain ⟨hwne, hwf⟩ := splitWs_words textToSpeak w hwmem
    have htrim : trimChars (joinSep [' '] ((splitWs textToSpeak).drop ((i : Int)).toNat)) ≠ [] := by
      rw [Int.toNat_natCast, hws]
      exact trimChars_joinSep_ne_nil w ws hwne hwf
    simp only [playFromWord]
    rw [if_neg hguard, if_pos (List.length_pos.mpr htrim)]
    rfl
  · have h0 : onBoundaryWordEvent (splitWs textToSpeak)
        (joinSep [' '] ((splitWs textToSpeak).drop i)) i 0 =
        if i < (splitWs textToSpeak).length then some i else none := rfl
    rw [h0, if_pos hi]

/-- The three-word text `"ab cd e"`. -/
def tAbCdE : List Char := ['a', 'b', ' ', 'c', 'd', ' ', 'e']

/-- Witness for C3: seeking to word 1 of `"ab cd e"` and receiving a
boundary event at character offset 0 reports word index 1. -/
theorem c3_boundary_word_index_witness :
    1 < (splitWs tAbCdE).length ∧
    (∀ s : PlayerState, (playFromWord tAbCdE (1 : Int) s).2 =
      [SpeechEffect.cancel,
       SpeechEffect.speak { text := joinSep [' '] ((splitWs tAbCdE).drop 1),
                            startWordOffset := 1 }]) ∧
    onBoundaryWordEvent (splitWs tAbCdE)
        (joinSep [' '] ((splitWs tAbCdE).drop 1)) 1 0 = some 1 :=
  ⟨by decide, (c3_boundary_word_index tAbCdE 1 (by decide)).1,
   (c3_boundary_word_index tAbCdE 1 (by decide)).2.2⟩

end ReadAble
